import Mathlib

/-!
Verification of the solar-challenge cleaning and analysis pipeline.

The observation table of the pipeline (a pandas DataFrame in the source)
is embedded as a list of named columns plus a list of rows of cells.  A
cell is a missing value (NaN), an exact rational number standing for a
float, or a parsed timestamp (month, hour, day-of-week).  Missing values
and float NaN coincide in the source (pandas represents both as NaN), so
one constructor covers both.  Float results that are not finite rationals
(NaN propagation, mean of an empty series, division by zero) are
represented by the undefined value none of the option type Flt; the
library square root used for standard deviations is abstracted as a
function parameter sq, since no verified property depends on its values.
-/

set_option allowUnsafeReducibility true in
attribute [reducible] Rat.add Rat.mul Rat.inv Rat.sub Rat.ofScientific

namespace Solar

inductive Cell where
  | na : Cell
  | num : ℚ → Cell
  | dt : ℕ → ℕ → ℕ → Cell
deriving DecidableEq

def Cell.isNum : Cell → Bool
  | .num _ => true
  | _ => false

def Cell.isDt : Cell → Bool
  | .dt _ _ _ => true
  | _ => false

structure Table where
  names : List String
  rows : List (List Cell)
deriving DecidableEq

/-- Index of a column name, mirroring DataFrame column lookup. -/
def findCol : List String → String → Option ℕ
  | [], _ => none
  | n :: ns, c => if n = c then some 0 else (findCol ns c).map (· + 1)

/-- The cells of column i, one per row (absent positions read as missing). -/
def colCells (t : Table) (i : ℕ) : List Cell :=
  t.rows.map (fun r => r.getD i Cell.na)

/-- The non-missing numeric values of a column, in row order (dropna). -/
def nonMissing (cs : List Cell) : List ℚ :=
  cs.filterMap (fun c => match c with | Cell.num q => some q | _ => none)

/-- Count of missing entries (isna().sum()). -/
def naCount (cs : List Cell) : ℕ :=
  cs.countP (fun c => decide (c = Cell.na))

/- ### numeric helpers (numpy / pandas semantics over exact rationals) -/

def meanQ (l : List ℚ) : ℚ := l.sum / l.length

/-- Population variance (scipy zscore uses ddof = 0). -/
def popVar (l : List ℚ) : ℚ :=
  (l.map (fun x => (x - meanQ l) * (x - meanQ l))).sum / l.length

/-- Whether the absolute Z-score of x exceeds thr.  When the variance is
zero scipy's zscore is NaN and every NaN comparison is false, so no value
is flagged; for positive variance, |x - m| / s > thr is compared via
squares to stay in ℚ. -/
def isZOut (m v thr x : ℚ) : Bool :=
  if v = 0 then false
  else if thr < 0 then true
  else decide ((x - m) * (x - m) > thr * thr * v)

def zOutlierCount (l : List ℚ) (thr : ℚ) : ℕ :=
  l.countP (isZOut (meanQ l) (popVar l) thr)

/- ### stable sorting, as CPython's sorted (stable; reverse=True is
implemented by reversing before and after an ascending stable sort) -/

def ordIns {α : Type} (lt : α → α → Bool) (x : α) : List α → List α
  | [] => [x]
  | y :: ys => if lt y x then y :: ordIns lt x ys else x :: y :: ys

def sortAsc {α : Type} (lt : α → α → Bool) : List α → List α
  | [] => []
  | x :: xs => ordIns lt x (sortAsc lt xs)

def pySortedRev {α : Type} (lt : α → α → Bool) (l : List α) : List α :=
  (sortAsc lt l.reverse).reverse

def sortQ (l : List ℚ) : List ℚ := sortAsc (fun a b => decide (a < b)) l

/-- pandas median: middle of the sorted values, or the average of the two
middle values; missing (NaN) when there are no values. -/
def medianCell (l : List ℚ) : Cell :=
  let s := sortQ l
  if s.length = 0 then Cell.na
  else if s.length % 2 = 1 then Cell.num (s.getD (s.length / 2) 0)
  else Cell.num ((s.getD (s.length / 2 - 1) 0 + s.getD (s.length / 2) 0) / 2)

/- ### floats with an undefined value (NaN and other non-finite results) -/

abbrev Flt := Option ℚ

def fadd : Flt → Flt → Flt
  | some a, some b => some (a + b)
  | _, _ => none

def fsub : Flt → Flt → Flt
  | some a, some b => some (a - b)
  | _, _ => none

def fmul : Flt → Flt → Flt
  | some a, some b => some (a * b)
  | _, _ => none

def fdiv : Flt → Flt → Flt
  | some a, some b => if b = 0 then none else some (a / b)
  | _, _ => none

/-- Float strict order: any comparison involving NaN is false. -/
def fltLt : Flt → Flt → Bool
  | some a, some b => decide (a < b)
  | _, _ => false

def fltLe : Flt → Flt → Bool
  | some a, some b => decide (a ≤ b)
  | _, _ => false

def fmeanQ (l : List ℚ) : Flt :=
  if l.length = 0 then none else some (meanQ l)

/-- Sample variance (pandas std uses ddof = 1). -/
def sampleVar (l : List ℚ) : ℚ :=
  (l.map (fun x => (x - meanQ l) * (x - meanQ l))).sum / ((l.length : ℚ) - 1)

/-- pandas std: NaN on fewer than two values; sq abstracts the square root. -/
def fstdQ (sq : ℚ → ℚ) (l : List ℚ) : Flt :=
  if l.length ≤ 1 then none else some (sq (sampleVar l))

def fmaxQ : List ℚ → Flt
  | [] => none
  | x :: xs => some (xs.foldl max x)

/-- pandas quantile with linear interpolation. -/
def quantileQ (l : List ℚ) (q : ℚ) : Flt :=
  let s := sortQ l
  if s.length = 0 then none
  else
    let h : ℚ := ((s.length : ℚ) - 1) * q
    let i : ℕ := h.floor.toNat
    some (s.getD i 0 + (h - (i : ℚ)) * (s.getD (i + 1) 0 - s.getD i 0))

/- ### SolarDataProcessor -/

/-- fillna: only missing entries are replaced; filling with a missing
value (the median of no data) changes nothing. -/
def fillCell (m : Cell) : Cell → Cell
  | Cell.na => m
  | c => c

/-- One iteration of the column loop of handle_missing_values: if the
column is present and has missing values, fill them with the column's
median (computed over non-missing values at this point) and record the
missing count in the report. -/
def imputeStep (acc : Table × List (String × ℕ)) (c : String) :
    Table × List (String × ℕ) :=
  match findCol acc.1.names c with
  | none => acc
  | some i =>
    let cells := colCells acc.1 i
    let mc := naCount cells
    if mc = 0 then acc
    else
      let med := medianCell (nonMissing cells)
      ({ names := acc.1.names,
         rows := acc.1.rows.map (fun r => r.set i (fillCell med (r.getD i Cell.na))) },
       acc.2 ++ [(c, mc)])

/-- SolarDataProcessor.handle_missing_values: returns the table and the
per-column report of imputed counts. -/
def handle_missing_values (t : Table) (cols : List String) :
    Table × List (String × ℕ) :=
  cols.foldl imputeStep (t, [])

/-- The loop body of detect_outliers for one column: skipped when absent
or not of numeric dtype, otherwise the count of values whose absolute
Z-score (over the non-missing values) exceeds the threshold. -/
def detectEntry (t : Table) (thr : ℚ) (c : String) : Option (String × ℕ) :=
  match findCol t.names c with
  | none => none
  | some i =>
    let cells := colCells t i
    if cells.any Cell.isDt then none
    else some (c, zOutlierCount (nonMissing cells) thr)

/-- SolarDataProcessor.detect_outliers: the per-column outlier report. -/
def detect_outliers (t : Table) (cols : List String) (thr : ℚ) :
    List (String × ℕ) :=
  cols.filterMap (detectEntry t thr)

/-- Keep the rows whose flag is true (positional boolean indexing). -/
def keepRows (rows : List (List Cell)) (keep : List Bool) : List (List Cell) :=
  (rows.zip keep).filterMap (fun p => if p.2 then some p.1 else none)

/-- One iteration of the column loop of remove_outliers.  The Z-scores are
computed over the column's non-missing values of the current table, and
the resulting boolean mask is applied positionally to the full table.
When the mask is all false nothing happens; otherwise the mask's length
must equal the row count (pandas raises IndexError on a length mismatch,
and scipy faults on a non-numeric column), modelled as none. -/
def removeStep (thr : ℚ) (t : Table) (c : String) : Option Table :=
  match findCol t.names c with
  | none => some t
  | some i =>
    let cells := colCells t i
    if cells.any Cell.isDt then none
    else
      let nm := nonMissing cells
      let mask := nm.map (isZOut (meanQ nm) (popVar nm) thr)
      if mask.any (fun b => b) then
        if mask.length = t.rows.length then
          some { names := t.names, rows := keepRows t.rows (mask.map (fun b => !b)) }
        else none
      else some t

/-- SolarDataProcessor.remove_outliers: the columns are processed strictly
sequentially, each removal narrowing the table before the next column's
Z-scores are recomputed; returns the final table and the total number of
rows removed. -/
def remove_outliers (t : Table) (cols : List String) (thr : ℚ) :
    Option (Table × ℕ) :=
  (cols.foldlM (removeStep thr) t).map
    (fun t2 => (t2, t.rows.length - t2.rows.length))

/-- Derived calendar features of one timestamp cell. -/
def derivedCells : Cell → List Cell
  | Cell.dt mo h d =>
    [Cell.num h, Cell.num mo, Cell.num d, Cell.num ((mo % 12 + 3) / 3 : ℕ)]
  | _ => [Cell.na, Cell.na, Cell.na, Cell.na]

/-- SolarDataProcessor.process_timestamp: no-op when the timestamp column
is absent; otherwise appends the Hour, Month, DayOfWeek and Season
columns derived row-wise from the timestamp. -/
def process_timestamp (t : Table) (ts : String) : Table :=
  match findCol t.names ts with
  | none => t
  | some i =>
    { names := t.names ++ ["Hour", "Month", "DayOfWeek", "Season"],
      rows := t.rows.map (fun r => r ++ derivedCells (r.getD i Cell.na)) }

/- ### SolarAnalyzer -/

structure Metrics where
  average_ghi : Flt
  std_ghi : Flt
  cv_ghi : Flt
  peak_ghi : Flt
  peak_95th : Flt
  consistency_score : Flt
  operational_hours : ℕ
  high_potential_hours : ℕ
deriving DecidableEq

/-- SolarAnalyzer.calculate_solar_potential_metrics: empty result (none)
iff the GHI column is absent; otherwise the metrics of the non-missing
GHI values. -/
def calculate_solar_potential_metrics (sq : ℚ → ℚ) (t : Table) :
    Option Metrics :=
  match findCol t.names ("GHI") with
  | none => none
  | some i =>
    let g := nonMissing (colCells t i)
    some
      { average_ghi := fmeanQ g
        std_ghi := fstdQ sq g
        cv_ghi := fmul (fdiv (fstdQ sq g) (fmeanQ g)) (some 100)
        peak_ghi := fmaxQ g
        peak_95th := quantileQ g (0.95 : ℚ)
        consistency_score :=
          fsub (some 100) (fmul (fdiv (fstdQ sq g) (fmeanQ g)) (some 100))
        operational_hours := g.countP (fun x => decide (x > 50))
        high_potential_hours := g.countP (fun x => decide (x > 400)) }

structure RankEntry where
  composite_score : Flt
  average_ghi : Flt
  consistency : Flt
  high_potential_hours : ℕ
  metrics : Metrics
deriving DecidableEq

/-- The ranking entry built by rank_countries from a country's metrics,
with the weighted composite score of the source. -/
def mkRankEntry (m : Metrics) : RankEntry :=
  { composite_score :=
      fadd (fadd (fadd (fmul m.average_ghi (some (0.4 : ℚ)))
          (fmul (fsub (some 100) m.cv_ghi) (some (0.3 : ℚ))))
          (fmul (some (m.high_potential_hours : ℚ)) (some (0.2 : ℚ))))
          (fmul m.peak_95th (some (0.1 : ℚ)))
    average_ghi := m.average_ghi
    consistency := fsub (some 100) m.cv_ghi
    high_potential_hours := m.high_potential_hours
    metrics := m }

/-- The per-country entries in input order; countries whose metrics are
empty (GHI absent) are dropped. -/
def rankingsList (sq : ℚ → ℚ) (d : List (String × Table)) :
    List (String × RankEntry) :=
  d.filterMap (fun p =>
    (calculate_solar_potential_metrics sq p.2).map (fun m => (p.1, mkRankEntry m)))

def entryLt (a b : String × RankEntry) : Bool :=
  fltLt a.2.composite_score b.2.composite_score

/-- SolarAnalyzer.rank_countries: the entries sorted by composite score
descending with Python's stable sort. -/
def rank_countries (sq : ℚ → ℚ) (d : List (String × Table)) :
    List (String × RankEntry) :=
  pySortedRev entryLt (rankingsList sq d)

structure CompareResult where
  countries : List String
  sample_sizes : List (String × ℕ)
deriving DecidableEq

/-- SolarAnalyzer.compare_countries_statistical: the samples are the
metric columns with missing values dropped, one per country having the
column; with fewer than two such countries the result is empty (none),
otherwise the prepared samples are handed to the statistical tests. -/
def compare_countries_statistical (d : List (String × Table)) (metric : String) :
    Option CompareResult :=
  let samples := d.filterMap (fun p =>
    (findCol p.2.names metric).map (fun i => (p.1, nonMissing (colCells p.2 i))))
  if samples.length < 2 then none
  else some
    { countries := samples.map Prod.fst
      sample_sizes := samples.map (fun s => (s.1, s.2.length)) }

/-- Comparison definition following the specification's words only: a
single combined pass computing every column's outlier mask on the
original table and removing each row flagged in any checked column. -/
def combinedMaskPass (t : Table) (cols : List String) (thr : ℚ) : Table × ℕ :=
  let flag : ℕ → Bool := fun j => cols.any (fun c =>
    match findCol t.names c with
    | none => false
    | some i =>
      let nm := nonMissing (colCells t i)
      match (t.rows.getD j []).getD i Cell.na with
      | Cell.num x => isZOut (meanQ nm) (popVar nm) thr x
      | _ => false)
  let keep := (List.range t.rows.length).map (fun j => ! flag j)
  ({ names := t.names, rows := keepRows t.rows keep },
   t.rows.length - (keepRows t.rows keep).length)

/-! ### concrete tables and values used as test inputs -/

/-- Two-column table exhibiting the order dependence of remove_outliers:
column A flags only the last row, and only after its removal does column
B acquire outliers. -/
def TC2 : Table :=
  { names := ["A", "B"],
    rows := [[Cell.num 0, Cell.num 0], [Cell.num 0, Cell.num 0],
             [Cell.num 0, Cell.num 0], [Cell.num 0, Cell.num 10],
             [Cell.num 0, Cell.num 10], [Cell.num 10, Cell.num 10]] }

/-- The table remove_outliers leaves of TC2 when processing A then B. -/
def TC2out : Table :=
  { names := ["A", "B"],
    rows := [[Cell.num 0, Cell.num 0], [Cell.num 0, Cell.num 0],
             [Cell.num 0, Cell.num 0]] }

/-- A column with one missing value and one outlier among the non-missing
values: the Z-score mask is shorter than the table. -/
def TC10 : Table :=
  { names := ["A"],
    rows := [[Cell.num 0], [Cell.num 0], [Cell.num 0], [Cell.num 0],
             [Cell.na], [Cell.num 100]] }

/-- A fully numeric table with no missing values. -/
def TW10 : Table :=
  { names := ["A"], rows := [[Cell.num 0], [Cell.num 100]] }

/-- A single numeric column whose last row is an outlier. -/
def TW5 : Table :=
  { names := ["A"],
    rows := [[Cell.num 0], [Cell.num 0], [Cell.num 0], [Cell.num 0],
             [Cell.num 0], [Cell.num 10]] }

/-- The table remove_outliers leaves of TW5. -/
def TW5out : Table :=
  { names := ["A"],
    rows := [[Cell.num 0], [Cell.num 0], [Cell.num 0], [Cell.num 0],
             [Cell.num 0]] }

/-- A column with one missing value among numeric values. -/
def TC3 : Table :=
  { names := ["GHI"], rows := [[Cell.num 1], [Cell.na], [Cell.num 3]] }

/-- A column whose entries are all missing. -/
def TC8 : Table :=
  { names := ["GHI"], rows := [[Cell.na], [Cell.na]] }

/-- A constant (zero variance) GHI column. -/
def TC6 : Table :=
  { names := ["GHI"],
    rows := [[Cell.num 5], [Cell.num 5], [Cell.num 5]] }

/-- A well-behaved GHI table: two values of 100. -/
def TA1 : Table :=
  { names := ["GHI"], rows := [[Cell.num 100], [Cell.num 100]] }

/-- A well-behaved GHI table with a smaller mean. -/
def TB4 : Table :=
  { names := ["GHI"], rows := [[Cell.num 50], [Cell.num 50]] }

/-- A table whose GHI column is present but entirely missing. -/
def TNAN : Table := { names := ["GHI"], rows := [[Cell.na]] }

/-- A table without a GHI column. -/
def TNOG : Table := { names := ["T"], rows := [[Cell.num 1]] }

/-- GHI samples for the comparison counterexample. -/
def TA7 : Table :=
  { names := ["GHI"], rows := [[Cell.num 1], [Cell.num 2], [Cell.num 3]] }

/-- A second country whose GHI column is present but entirely missing. -/
def TB7 : Table := { names := ["GHI"], rows := [[Cell.na], [Cell.na]] }

/-- The metrics of TA1 under the identity square root. -/
def mA : Metrics :=
  { average_ghi := some 100, std_ghi := some 0, cv_ghi := some 0,
    peak_ghi := some 100, peak_95th := some 100,
    consistency_score := some 100, operational_hours := 2,
    high_potential_hours := 0 }

/-- The ranking entry of TA1. -/
def eA : RankEntry := mkRankEntry mA

/-- The metrics of TNAN: every float field is NaN. -/
def mN : Metrics :=
  { average_ghi := none, std_ghi := none, cv_ghi := none,
    peak_ghi := none, peak_95th := none, consistency_score := none,
    operational_hours := 0, high_potential_hours := 0 }

/-- Input mapping for the ranking-formula witness. -/
def dW1 : List (String × Table) := [("A", TA1), ("N", TNOG)]

/-- Input mapping with a tie (countries A and C share a table). -/
def dW4 : List (String × Table) := [("A", TA1), ("B", TB4), ("C", TA1)]

/-! ### lemmas about the stable sort -/

theorem ordIns_cons_pos {α : Type} (lt : α → α → Bool) (x y : α) (ys : List α)
    (h : lt y x = true) : ordIns lt x (y :: ys) = y :: ordIns lt x ys := by
  simp [ordIns, h]

theorem ordIns_cons_neg {α : Type} (lt : α → α → Bool) (x y : α) (ys : List α)
    (h : lt y x = false) : ordIns lt x (y :: ys) = x :: y :: ys := by
  simp [ordIns, h]

theorem ordIns_perm {α : Type} (lt : α → α → Bool) (x : α) :
    ∀ l : List α, (ordIns lt x l).Perm (x :: l)
  | [] => List.Perm.refl _
  | y :: ys => by
    by_cases h : lt y x = true
    · rw [ordIns_cons_pos lt x y ys h]
      exact ((ordIns_perm lt x ys).cons y).trans (List.Perm.swap x y ys)
    · rw [ordIns_cons_neg lt x y ys (by simpa using h)]

theorem sortAsc_perm {α : Type} (lt : α → α → Bool) :
    ∀ l : List α, (sortAsc lt l).Perm l
  | [] => List.Perm.refl _
  | x :: xs => (ordIns_perm lt x (sortAsc lt xs)).trans ((sortAsc_perm lt xs).cons x)

theorem mem_sortAsc {α : Type} (lt : α → α → Bool) (l : List α) (a : α) :
    a ∈ sortAsc lt l ↔ a ∈ l :=
  (sortAsc_perm lt l).mem_iff

theorem mem_ordIns {α : Type} (lt : α → α → Bool) (x a : α) (l : List α) :
    a ∈ ordIns lt x l ↔ a = x ∨ a ∈ l := by
  rw [(ordIns_perm lt x l).mem_iff, List.mem_cons]

theorem mem_pySortedRev {α : Type} (lt : α → α → Bool) (l : List α) (a : α) :
    a ∈ pySortedRev lt l ↔ a ∈ l := by
  unfold pySortedRev
  rw [List.mem_reverse, mem_sortAsc, List.mem_reverse]

theorem pairwise_ordIns {α : Type} (lt : α → α → Bool)
    (hasym : ∀ a b : α, lt a b = true → lt b a = false) (x : α) (l : List α) :
    (∀ a b c : α, a ∈ x :: l → b ∈ x :: l → c ∈ x :: l →
      lt b a = false → lt c b = false → lt c a = false) →
    l.Pairwise (fun a b => lt b a = false) →
    (ordIns lt x l).Pairwise (fun a b => lt b a = false) := by
  induction l with
  | nil => intro _ _; simp [ordIns]
  | cons y ys ih =>
    intro htr hl
    rcases List.pairwise_cons.mp hl with ⟨hy, hys⟩
    by_cases h : lt y x = true
    · rw [ordIns_cons_pos lt x y ys h]
      refine List.pairwise_cons.mpr ⟨?_, ?_⟩
      · intro z hz
        rcases (mem_ordIns lt x z ys).mp hz with rfl | hz2
        · exact hasym y z h
        · exact hy z hz2
      · refine ih ?_ hys
        intro a b c ha hb hc
        have hw : ∀ u : α, u ∈ x :: ys → u ∈ x :: y :: ys := by
          intro u hu
          rcases List.mem_cons.mp hu with rfl | hu2
          · exact List.mem_cons_self _ _
          · exact List.mem_cons_of_mem _ (List.mem_cons_of_mem _ hu2)
        exact htr a b c (hw a ha) (hw b hb) (hw c hc)
    · have h2 : lt y x = false := by simpa using h
      rw [ordIns_cons_neg lt x y ys h2]
      refine List.pairwise_cons.mpr ⟨?_, List.pairwise_cons.mpr ⟨hy, hys⟩⟩
      intro z hz
      rcases List.mem_cons.mp hz with rfl | hz2
      · exact h2
      · exact htr x y z (List.mem_cons_self _ _)
          (List.mem_cons_of_mem _ (List.mem_cons_self _ _))
          (List.mem_cons_of_mem _ (List.mem_cons_of_mem _ hz2)) h2 (hy z hz2)

theorem pairwise_sortAsc {α : Type} (lt : α → α → Bool)
    (hasym : ∀ a b : α, lt a b = true → lt b a = false) (l : List α) :
    (∀ a b c : α, a ∈ l → b ∈ l → c ∈ l →
      lt b a = false → lt c b = false → lt c a = false) →
    (sortAsc lt l).Pairwise (fun a b => lt b a = false) := by
  induction l with
  | nil => intro _; simp [sortAsc]
  | cons x xs ih =>
    intro htr
    show (ordIns lt x (sortAsc lt xs)).Pairwise _
    have hw : ∀ u : α, u ∈ x :: sortAsc lt xs → u ∈ x :: xs := by
      intro u hu
      rcases List.mem_cons.mp hu with rfl | hu2
      · exact List.mem_cons_self _ _
      · exact List.mem_cons_of_mem _ ((mem_sortAsc lt xs u).mp hu2)
    refine pairwise_ordIns lt hasym x (sortAsc lt xs) ?_ ?_
    · intro a b c ha hb hc
      exact htr a b c (hw a ha) (hw b hb) (hw c hc)
    · refine ih ?_
      intro a b c ha hb hc
      exact htr a b c (List.mem_cons_of_mem _ ha) (List.mem_cons_of_mem _ hb)
        (List.mem_cons_of_mem _ hc)

theorem pairwiseImpMem {α : Type} {R S : α → α → Prop} (l : List α)
    (h : ∀ a b : α, a ∈ l → b ∈ l → R a b → S a b) (hp : l.Pairwise R) :
    l.Pairwise S := by
  induction l with
  | nil => exact List.Pairwise.nil
  | cons x xs ih =>
    rcases List.pairwise_cons.mp hp with ⟨hx, hxs⟩
    refine List.pairwise_cons.mpr ⟨?_, ?_⟩
    · intro b hb
      exact h x b (List.mem_cons_self _ _) (List.mem_cons_of_mem _ hb) (hx b hb)
    · refine ih ?_ hxs
      intro a b ha hb
      exact h a b (List.mem_cons_of_mem _ ha) (List.mem_cons_of_mem _ hb)

theorem pairwise_pySortedRev {α : Type} (lt : α → α → Bool)
    (hasym : ∀ a b : α, lt a b = true → lt b a = false) (l : List α)
    (htr : ∀ a b c : α, a ∈ l → b ∈ l → c ∈ l →
      lt b a = false → lt c b = false → lt c a = false) :
    (pySortedRev lt l).Pairwise (fun a b => lt a b = false) := by
  unfold pySortedRev
  rw [List.pairwise_reverse]
  refine pairwise_sortAsc lt hasym l.reverse ?_
  intro a b c ha hb hc
  exact htr a b c (List.mem_reverse.mp ha) (List.mem_reverse.mp hb)
    (List.mem_reverse.mp hc)

theorem filter_ordIns {α : Type} (lt : α → α → Bool) (p : α → Bool)
    (hinc : ∀ a b : α, p a = true → p b = true → lt a b = false)
    (x : α) (l : List α) :
    (ordIns lt x l).filter p
      = if p x then x :: l.filter p else l.filter p := by
  induction l with
  | nil => by_cases hx : p x = true <;> simp [ordIns, hx]
  | cons y ys ih =>
    by_cases h : lt y x = true
    · rw [ordIns_cons_pos lt x y ys h]
      by_cases hy : p y = true
      · by_cases hx : p x = true
        · exact absurd (hinc y x hy hx) (by simp [h])
        · simp [List.filter_cons, hy, ih, hx]
      · simp [List.filter_cons, hy, ih]
    · rw [ordIns_cons_neg lt x y ys (by simpa using h)]
      by_cases hx : p x = true <;> simp [List.filter_cons, hx]

theorem filter_sortAsc {α : Type} (lt : α → α → Bool) (p : α → Bool)
    (hinc : ∀ a b : α, p a = true → p b = true → lt a b = false) :
    ∀ l : List α, (sortAsc lt l).filter p = l.filter p := by
  intro l
  induction l with
  | nil => rfl
  | cons x xs ih =>
    show (ordIns lt x (sortAsc lt xs)).filter p = _
    rw [filter_ordIns lt p hinc x (sortAsc lt xs), ih]
    by_cases hx : p x = true <;> simp [List.filter_cons, hx]

theorem filter_pySortedRev {α : Type} (lt : α → α → Bool) (p : α → Bool)
    (hinc : ∀ a b : α, p a = true → p b = true → lt a b = false) (l : List α) :
    (pySortedRev lt l).filter p = l.filter p := by
  unfold pySortedRev
  rw [List.filter_reverse, filter_sortAsc lt p hinc, List.filter_reverse,
    List.reverse_reverse]

/-! ### lemmas about cells, columns and list access -/

theorem getD_set_ne (v d : Cell) :
    ∀ (r : List Cell) (j i : ℕ), j ≠ i → (r.set j v).getD i d = r.getD i d
  | [], _, _, _ => rfl
  | _ :: _, 0, 0, h => absurd rfl h
  | _ :: _, 0, _ + 1, _ => rfl
  | _ :: _, _ + 1, 0, _ => rfl
  | x :: xs, j + 1, i + 1, h => by
    have : (x :: xs).set (j + 1) v = x :: xs.set j v := rfl
    rw [this, List.getD_cons_succ, List.getD_cons_succ]
    exact getD_set_ne v d xs j i (fun hh => h (by rw [hh]))

theorem getD_set_self (v d : Cell) :
    ∀ (r : List Cell) (i : ℕ), i < r.length → (r.set i v).getD i d = v
  | [], i, h => absurd h (by simp)
  | _ :: _, 0, _ => rfl
  | x :: xs, i + 1, h => by
    have : (x :: xs).set (i + 1) v = x :: xs.set i v := rfl
    rw [this, List.getD_cons_succ]
    exact getD_set_self v d xs i (by simpa using h)

theorem set_getD_self (d : Cell) :
    ∀ (r : List Cell) (i : ℕ), r.set i (r.getD i d) = r
  | [], _ => rfl
  | _ :: _, 0 => rfl
  | x :: xs, i + 1 => by
    have : (x :: xs).set (i + 1) ((x :: xs).getD (i + 1) d)
        = x :: xs.set i (xs.getD i d) := by rw [List.getD_cons_succ]; rfl
    rw [this, set_getD_self d xs i]

theorem fillCell_na (c : Cell) : fillCell Cell.na c = c := by
  cases c <;> rfl

theorem fillCell_num_ne_na (q : ℚ) (c : Cell) :
    fillCell (Cell.num q) c ≠ Cell.na := by
  cases c <;> simp [fillCell]

theorem fillCell_ne_na (m c : Cell) (hc : c ≠ Cell.na) : fillCell m c = c := by
  cases c
  · exact absurd rfl hc
  · rfl
  · rfl

theorem naCount_eq_zero (cs : List Cell) :
    naCount cs = 0 ↔ ∀ c ∈ cs, c ≠ Cell.na := by
  simp [naCount, List.countP_eq_zero]

theorem naCount_map_fill_num (q : ℚ) (cs : List Cell) :
    naCount (cs.map (fillCell (Cell.num q))) = 0 := by
  rw [naCount_eq_zero]
  intro c hc
  rcases List.mem_map.mp hc with ⟨e, _, rfl⟩
  exact fillCell_num_ne_na q e

theorem map_fill_of_naCount_zero (m : Cell) (cs : List Cell)
    (h : naCount cs = 0) : cs.map (fillCell m) = cs := by
  have h2 := (naCount_eq_zero cs).mp h
  calc cs.map (fillCell m) = cs.map id := by
        refine List.map_congr_left ?_
        intro c hc
        exact fillCell_ne_na m c (h2 c hc)
    _ = cs := List.map_id cs

theorem nonMissing_nil_of_all_na (cs : List Cell)
    (h : ∀ c ∈ cs, c = Cell.na) : nonMissing cs = [] := by
  refine List.filterMap_eq_nil_iff.mpr ?_
  intro c hc
  rw [h c hc]

theorem nonMissing_length_of_num (cs : List Cell)
    (h : ∀ c ∈ cs, c.isNum = true) : (nonMissing cs).length = cs.length := by
  induction cs with
  | nil => rfl
  | cons c cs ih =>
    have hc := h c (List.mem_cons_self _ _)
    cases c with
    | num q =>
      have : nonMissing (Cell.num q :: cs) = q :: nonMissing cs := rfl
      rw [this]
      simp only [List.length_cons]
      rw [ih (fun e he => h e (List.mem_cons_of_mem _ he))]
    | na => simp [Cell.isNum] at hc
    | dt a b g => simp [Cell.isNum] at hc

theorem colCells_length (t : Table) (i : ℕ) :
    (colCells t i).length = t.rows.length := by
  simp [colCells]

theorem sortQ_length (l : List ℚ) : (sortQ l).length = l.length :=
  (sortAsc_perm _ l).length_eq

theorem medianCell_of_ne_nil (l : List ℚ) (h : l ≠ []) :
    ∃ q : ℚ, medianCell l = Cell.num q := by
  have hlen : (sortQ l).length ≠ 0 := by
    rw [sortQ_length]
    simpa using fun hh => h (List.length_eq_zero.mp hh)
  unfold medianCell
  by_cases hodd : (sortQ l).length % 2 = 1 <;> simp [hlen, hodd]

theorem medianCell_nil : medianCell [] = Cell.na := rfl

theorem findCol_getElem : ∀ (ns : List String) (c : String) (i : ℕ),
    findCol ns c = some i → ns[i]? = some c
  | [], _, _, h => by simp [findCol] at h
  | n :: ns, c, i, h => by
    by_cases he : n = c
    · subst he
      simp [findCol] at h
      subst h
      simp
    · rw [show findCol (n :: ns) c = (findCol ns c).map (· + 1) from by
        simp [findCol, he]] at h
      rcases Option.map_eq_some'.mp h with ⟨j, hj, rfl⟩
      have := findCol_getElem ns c j hj
      simpa using this

theorem findCol_ne_idx (ns : List String) (c c2 : String) (i j : ℕ)
    (hc : findCol ns c = some i) (hc2 : findCol ns c2 = some j)
    (hne : c ≠ c2) : j ≠ i := by
  intro he
  have h1 := findCol_getElem ns c i hc
  have h2 := findCol_getElem ns c2 j hc2
  rw [he, h1] at h2
  exact hne (by injection h2)

theorem lookup_append_right (c : String) (l1 l2 : List (String × ℕ))
    (h : l1.lookup c = none) : (l1 ++ l2).lookup c = l2.lookup c := by
  induction l1 with
  | nil => rfl
  | cons x xs ih =>
    by_cases he : c = x.1
    · simp [List.lookup, he] at h
    · have hx : (c == x.1) = false := by simpa using he
      simp only [List.cons_append, List.lookup, hx] at h ⊢
      exact ih h

theorem lookup_append_left (c : String) (l1 l2 : List (String × ℕ)) (v : ℕ)
    (h : l1.lookup c = some v) : (l1 ++ l2).lookup c = some v := by
  induction l1 with
  | nil => simp [List.lookup] at h
  | cons x xs ih =>
    by_cases he : c = x.1
    · have hx : (c == x.1) = true := by simpa using he
      simp only [List.lookup, hx] at h
      simp only [List.cons_append, List.lookup, hx]
      exact h
    · have hx : (c == x.1) = false := by simpa using he
      simp only [List.lookup, hx] at h
      simp only [List.cons_append, List.lookup, hx]
      exact ih h

theorem lookup_singleton_ne (c c2 : String) (v : ℕ) (h : c ≠ c2) :
    ([(c2, v)] : List (String × ℕ)).lookup c = none := by
  have hx : (c == c2) = false := by simpa using h
  simp [List.lookup, hx]

theorem lookup_singleton_self (c : String) (v : ℕ) :
    ([(c, v)] : List (String × ℕ)).lookup c = some v := by
  simp [List.lookup]

theorem lookup_append_singleton_ne (c c2 : String) (v : ℕ)
    (rep : List (String × ℕ)) (h : c ≠ c2) :
    (rep ++ [(c2, v)]).lookup c = rep.lookup c := by
  cases hl : rep.lookup c with
  | none => rw [lookup_append_right c rep _ hl, lookup_singleton_ne c c2 v h]
  | some w => rw [lookup_append_left c rep _ w hl]

theorem map_fillCell_na (cs : List Cell) : cs.map (fillCell Cell.na) = cs := by
  calc cs.map (fillCell Cell.na) = cs.map id := by
        refine List.map_congr_left ?_
        intro c _
        exact fillCell_na c
    _ = cs := List.map_id cs

/-! ### equations for one imputation step -/

theorem imputeStep_none (t : Table) (rep : List (String × ℕ)) (c : String)
    (h : findCol t.names c = none) : imputeStep (t, rep) c = (t, rep) := by
  simp [imputeStep, h]

theorem imputeStep_skip (t : Table) (rep : List (String × ℕ)) (c : String)
    (i : ℕ) (h : findCol t.names c = some i)
    (hmc : naCount (colCells t i) = 0) : imputeStep (t, rep) c = (t, rep) := by
  simp [imputeStep, h, hmc]

theorem imputeStep_fill (t : Table) (rep : List (String × ℕ)) (c : String)
    (i : ℕ) (h : findCol t.names c = some i)
    (hmc : naCount (colCells t i) ≠ 0) :
    imputeStep (t, rep) c =
      ({ names := t.names,
         rows := t.rows.map (fun r =>
           r.set i (fillCell (medianCell (nonMissing (colCells t i)))
             (r.getD i Cell.na))) },
       rep ++ [(c, naCount (colCells t i))]) := by
  simp [imputeStep, h, hmc]

theorem imputeStep_allNa (t : Table) (rep : List (String × ℕ)) (c : String)
    (i : ℕ) (h : findCol t.names c = some i)
    (hmc : naCount (colCells t i) ≠ 0)
    (hnm : nonMissing (colCells t i) = []) :
    imputeStep (t, rep) c = (t, rep ++ [(c, naCount (colCells t i))]) := by
  rw [imputeStep_fill t rep c i h hmc, hnm, medianCell_nil]
  have hrows : t.rows.map (fun r =>
      r.set i (fillCell Cell.na (r.getD i Cell.na))) = t.rows := by
    calc t.rows.map (fun r => r.set i (fillCell Cell.na (r.getD i Cell.na)))
        = t.rows.map id := by
          refine List.map_congr_left ?_
          intro r _
          rw [fillCell_na, set_getD_self]
          rfl
      _ = t.rows := List.map_id t.rows
  rw [hrows]

theorem imputeStep_names (t : Table) (rep : List (String × ℕ)) (c : String) :
    (imputeStep (t, rep) c).1.names = t.names := by
  cases h : findCol t.names c with
  | none => rw [imputeStep_none t rep c h]
  | some i =>
    by_cases hmc : naCount (colCells t i) = 0
    · rw [imputeStep_skip t rep c i h hmc]
    · rw [imputeStep_fill t rep c i h hmc]

theorem imputeStep_rows_length (t : Table) (rep : List (String × ℕ))
    (c : String) : (imputeStep (t, rep) c).1.rows.length = t.rows.length := by
  cases h : findCol t.names c with
  | none => rw [imputeStep_none t rep c h]
  | some i =>
    by_cases hmc : naCount (colCells t i) = 0
    · rw [imputeStep_skip t rep c i h hmc]
    · rw [imputeStep_fill t rep c i h hmc]
      simp

theorem imputeStep_row_lens (t : Table) (rep : List (String × ℕ)) (c : String)
    (i : ℕ) (h : ∀ r ∈ t.rows, i < r.length) :
    ∀ r2 ∈ (imputeStep (t, rep) c).1.rows, i < r2.length := by
  cases hf : findCol t.names c with
  | none => rw [imputeStep_none t rep c hf]; exact h
  | some j =>
    by_cases hmc : naCount (colCells t j) = 0
    · rw [imputeStep_skip t rep c j hf hmc]; exact h
    · rw [imputeStep_fill t rep c j hf hmc]
      intro r2 hr2
      rcases List.mem_map.mp hr2 with ⟨r, hr, rfl⟩
      rw [List.length_set]
      exact h r hr

theorem imputeStep_colCells_ne (t : Table) (rep : List (String × ℕ))
    (c c2 : String) (i : ℕ) (hc : findCol t.names c = some i) (hne : c2 ≠ c) :
    colCells (imputeStep (t, rep) c2).1 i = colCells t i := by
  cases h2 : findCol t.names c2 with
  | none => rw [imputeStep_none t rep c2 h2]
  | some j =>
    by_cases hmc : naCount (colCells t j) = 0
    · rw [imputeStep_skip t rep c2 j h2 hmc]
    · rw [imputeStep_fill t rep c2 j h2 hmc]
      have hji : j ≠ i :=
        findCol_ne_idx t.names c c2 i j hc h2 (fun he => hne he.symm)
      show (List.map _ _).map _ = _
      rw [List.map_map]
      refine List.map_congr_left ?_
      intro r _
      exact getD_set_ne _ _ r j i hji

theorem imputeStep_lookup_ne (t : Table) (rep : List (String × ℕ))
    (c c2 : String) (hne : c2 ≠ c) :
    ((imputeStep (t, rep) c2).2).lookup c = rep.lookup c := by
  cases h2 : findCol t.names c2 with
  | none => rw [imputeStep_none t rep c2 h2]
  | some j =>
    by_cases hmc : naCount (colCells t j) = 0
    · rw [imputeStep_skip t rep c2 j h2 hmc]
    · rw [imputeStep_fill t rep c2 j h2 hmc]
      exact lookup_append_singleton_ne c c2 _ rep (fun he => hne he.symm)

/-! ### behaviour of the full column loop of handle_missing_values -/

theorem impute_fold_stable (c : String) (i : ℕ) :
    ∀ (cols : List String) (t : Table) (rep : List (String × ℕ)),
    findCol t.names c = some i →
    (naCount (colCells t i) = 0 ∨ nonMissing (colCells t i) = []) →
    colCells ((cols.foldl imputeStep (t, rep)).1) i = colCells t i
    ∧ (∀ v : ℕ, rep.lookup c = some v →
        ((cols.foldl imputeStep (t, rep)).2).lookup c = some v)
    ∧ (naCount (colCells t i) = 0 →
        ((cols.foldl imputeStep (t, rep)).2).lookup c = rep.lookup c)
  | [], t, rep, _, _ => ⟨rfl, fun _ hv => hv, fun _ => rfl⟩
  | c2 :: rest, t, rep, hc, hS => by
    rw [List.foldl_cons]
    by_cases he : c2 = c
    · subst he
      by_cases hmc : naCount (colCells t i) = 0
      · rw [imputeStep_skip t rep c2 i hc hmc]
        exact impute_fold_stable c2 i rest t rep hc hS
      · have hnm : nonMissing (colCells t i) = [] := by
          rcases hS with h0 | h0
          · exact absurd h0 hmc
          · exact h0
        rw [imputeStep_allNa t rep c2 i hc hmc hnm]
        have ih := impute_fold_stable c2 i rest t
          (rep ++ [(c2, naCount (colCells t i))]) hc hS
        refine ⟨ih.1, ?_, fun h0 => absurd h0 hmc⟩
        intro v hv
        exact ih.2.1 v (lookup_append_left c2 rep _ v hv)
    · have hnames := imputeStep_names t rep c2
      have hcol := imputeStep_colCells_ne t rep c c2 i hc he
      have hlk := imputeStep_lookup_ne t rep c c2 he
      have hc2 : findCol (imputeStep (t, rep) c2).1.names c = some i := by
        rw [hnames]; exact hc
      have hS2 : naCount (colCells (imputeStep (t, rep) c2).1 i) = 0
          ∨ nonMissing (colCells (imputeStep (t, rep) c2).1 i) = [] := by
        rw [hcol]; exact hS
      have ih := impute_fold_stable c i rest (imputeStep (t, rep) c2).1
        (imputeStep (t, rep) c2).2 hc2 hS2
      refine ⟨?_, ?_, ?_⟩
      · rw [← hcol]
        exact ih.1
      · intro v hv
        exact ih.2.1 v (by rw [hlk]; exact hv)
      · intro h0
        rw [← hlk]
        refine ih.2.2 ?_
        rw [hcol]
        exact h0

theorem impute_fold_run (c : String) (i : ℕ) :
    ∀ (cols : List String) (t : Table) (rep : List (String × ℕ)),
    findCol t.names c = some i →
    (∀ r ∈ t.rows, i < r.length) →
    rep.lookup c = none →
    c ∈ cols →
    colCells ((cols.foldl imputeStep (t, rep)).1) i
      = (colCells t i).map (fillCell (medianCell (nonMissing (colCells t i))))
    ∧ ((cols.foldl imputeStep (t, rep)).2).lookup c
      = (if naCount (colCells t i) = 0 then none
         else some (naCount (colCells t i)))
  | [], _, _, _, _, _, hmem => absurd hmem (List.not_mem_nil c)
  | c2 :: rest, t, rep, hc, hrow, hrep, hmem => by
    rw [List.foldl_cons]
    by_cases he : c2 = c
    · subst he
      by_cases hmc : naCount (colCells t i) = 0
      · rw [imputeStep_skip t rep c2 i hc hmc]
        have hst := impute_fold_stable c2 i rest t rep hc (Or.inl hmc)
        refine ⟨?_, ?_⟩
        · rw [hst.1, map_fill_of_naCount_zero _ _ hmc]
        · rw [hst.2.2 hmc, hrep, if_pos hmc]
      · by_cases hnm : nonMissing (colCells t i) = []
        · rw [imputeStep_allNa t rep c2 i hc hmc hnm]
          have hst := impute_fold_stable c2 i rest t
            (rep ++ [(c2, naCount (colCells t i))]) hc (Or.inr hnm)
          refine ⟨?_, ?_⟩
          · rw [hst.1, hnm, medianCell_nil, map_fillCell_na]
          · rw [if_neg hmc]
            refine hst.2.1 _ ?_
            rw [lookup_append_right c2 rep _ hrep, lookup_singleton_self]
        · rcases medianCell_of_ne_nil _ hnm with ⟨q, hq⟩
          rw [imputeStep_fill t rep c2 i hc hmc]
          set T2 : Table :=
            { names := t.names,
              rows := t.rows.map (fun r =>
                r.set i (fillCell (medianCell (nonMissing (colCells t i)))
                  (r.getD i Cell.na))) } with hT2
          have hcol2 : colCells T2 i
              = (colCells t i).map
                  (fillCell (medianCell (nonMissing (colCells t i)))) := by
            unfold colCells
            rw [show T2.rows = t.rows.map (fun r =>
              r.set i (fillCell (medianCell (nonMissing (colCells t i)))
                (r.getD i Cell.na))) from rfl]
            rw [List.map_map, List.map_map]
            refine List.map_congr_left ?_
            intro r hr
            show (r.set i _).getD i Cell.na = _
            rw [getD_set_self _ _ r i (hrow r hr)]
            rfl
          have hna2 : naCount (colCells T2 i) = 0 := by
            rw [hcol2, hq]
            exact naCount_map_fill_num q _
          have hfc2 : findCol T2.names c2 = some i := hc
          have hst := impute_fold_stable c2 i rest T2
            (rep ++ [(c2, naCount (colCells t i))]) hfc2 (Or.inl hna2)
          refine ⟨?_, ?_⟩
          · rw [hst.1, hcol2]
          · rw [if_neg hmc]
            refine hst.2.1 _ ?_
            rw [lookup_append_right c2 rep _ hrep, lookup_singleton_self]
    · have hnames := imputeStep_names t rep c2
      have hcol := imputeStep_colCells_ne t rep c c2 i hc he
      have hlk := imputeStep_lookup_ne t rep c c2 he
      have hc2 : findCol (imputeStep (t, rep) c2).1.names c = some i := by
        rw [hnames]; exact hc
      have hrow2 := imputeStep_row_lens t rep c2 i hrow
      have hrep2 : ((imputeStep (t, rep) c2).2).lookup c = none := by
        rw [hlk]; exact hrep
      have hmem2 : c ∈ rest := by
        rcases List.mem_cons.mp hmem with h0 | h0
        · exact absurd h0.symm he
        · exact h0
      have ih := impute_fold_run c i rest (imputeStep (t, rep) c2).1
        (imputeStep (t, rep) c2).2 hc2 hrow2 hrep2 hmem2
      refine ⟨?_, ?_⟩
      · rw [← hcol]
        exact ih.1
      · rw [← hcol]
        exact ih.2

/-! ### behaviour of remove_outliers -/

theorem keepRows_sublist : ∀ (rows : List (List Cell)) (keep : List Bool),
    (keepRows rows keep).Sublist rows
  | [], _ => by simp [keepRows]
  | _ :: _, [] => by simp [keepRows]
  | r :: rs, k :: ks => by
    cases k
    · show (List.filterMap _ ((r, false) :: rs.zip ks)).Sublist (r :: rs)
      rw [List.filterMap_cons]
      simp only [Bool.false_eq_true, if_false]
      exact (keepRows_sublist rs ks).cons r
    · show (List.filterMap _ ((r, true) :: rs.zip ks)).Sublist (r :: rs)
      rw [List.filterMap_cons]
      simp only [if_true]
      exact (keepRows_sublist rs ks).cons₂ r

theorem removeStep_skipCol (thr : ℚ) (t : Table) (c : String)
    (hf : findCol t.names c = none) : removeStep thr t c = some t := by
  simp [removeStep, hf]

theorem removeStep_noOut (thr : ℚ) (t : Table) (c : String) (i : ℕ)
    (hf : findCol t.names c = some i)
    (hdt : (colCells t i).any Cell.isDt = false)
    (hany : ((nonMissing (colCells t i)).map
      (isZOut (meanQ (nonMissing (colCells t i)))
        (popVar (nonMissing (colCells t i))) thr)).any (fun b => b) = false) :
    removeStep thr t c = some t := by
  simp [removeStep, hf, hdt, hany]

theorem removeStep_filter (thr : ℚ) (t : Table) (c : String) (i : ℕ)
    (hf : findCol t.names c = some i)
    (hdt : (colCells t i).any Cell.isDt = false)
    (hany : ((nonMissing (colCells t i)).map
      (isZOut (meanQ (nonMissing (colCells t i)))
        (popVar (nonMissing (colCells t i))) thr)).any (fun b => b) = true)
    (hlen : ((nonMissing (colCells t i)).map
      (isZOut (meanQ (nonMissing (colCells t i)))
        (popVar (nonMissing (colCells t i))) thr)).length = t.rows.length) :
    removeStep thr t c = some
      { names := t.names,
        rows := keepRows t.rows
          (((nonMissing (colCells t i)).map
            (isZOut (meanQ (nonMissing (colCells t i)))
              (popVar (nonMissing (colCells t i))) thr)).map (fun b => !b)) } := by
  simp [removeStep, hf, hdt, hany, hlen]

theorem removeStep_props (thr : ℚ) (t : Table) (c : String) (t2 : Table)
    (h : removeStep thr t c = some t2) :
    t2.names = t.names ∧ t2.rows.Sublist t.rows := by
  unfold removeStep at h
  split at h
  · injection h with h2
    subst h2
    exact ⟨rfl, List.Sublist.refl _⟩
  · simp only [] at h
    split at h
    · exact absurd h (by simp)
    · split at h
      · split at h
        · injection h with h2
          subst h2
          exact ⟨rfl, keepRows_sublist _ _⟩
        · exact absurd h (by simp)
      · injection h with h2
        subst h2
        exact ⟨rfl, List.Sublist.refl _⟩

theorem foldRemove_props (thr : ℚ) : ∀ (cols : List String) (t t2 : Table),
    List.foldlM (removeStep thr) t cols = some t2 →
    t2.names = t.names ∧ t2.rows.Sublist t.rows
  | [], t, t2, h => by
    have h2 : t = t2 := by simpa [List.foldlM] using h
    subst h2
    exact ⟨rfl, List.Sublist.refl _⟩
  | c :: cs, t, t2, h => by
    rw [List.foldlM_cons] at h
    cases hs : removeStep thr t c with
    | none => rw [hs] at h; exact absurd h (by simp)
    | some t1 =>
      rw [hs] at h
      have h2 : List.foldlM (removeStep thr) t1 cs = some t2 := by
        simpa using h
      have hp1 := removeStep_props thr t c t1 hs
      have hp2 := foldRemove_props thr cs t1 t2 h2
      exact ⟨hp2.1.trans hp1.1, hp2.2.trans hp1.2⟩

theorem isDt_eq_false_of_isNum (e : Cell) (h : e.isNum = true) :
    e.isDt = false := by
  cases e <;> simp_all [Cell.isNum, Cell.isDt]

theorem foldRemove_total (thr : ℚ) : ∀ (cols : List String) (t : Table),
    (∀ c ∈ cols, ∀ i, findCol t.names c = some i →
      ∀ e ∈ colCells t i, e.isNum = true) →
    (List.foldlM (removeStep thr) t cols).isSome = true
  | [], _, _ => rfl
  | c :: cs, t, hnum => by
    rw [List.foldlM_cons]
    have hrest : ∀ (t1 : Table), t1.names = t.names → t1.rows.Sublist t.rows →
        ∀ c2 ∈ cs, ∀ i, findCol t1.names c2 = some i →
          ∀ e ∈ colCells t1 i, e.isNum = true := by
      intro t1 hn hsub c2 hc2 i hf e he
      rcases List.mem_map.mp he with ⟨r, hr, rfl⟩
      refine hnum c2 (List.mem_cons_of_mem _ hc2) i (by rw [← hn]; exact hf) _ ?_
      exact List.mem_map_of_mem _ (hsub.subset hr)
    cases hf : findCol t.names c with
    | none =>
      rw [removeStep_skipCol thr t c hf]
      have : (some t >>= fun t1 => List.foldlM (removeStep thr) t1 cs)
          = List.foldlM (removeStep thr) t cs := rfl
      rw [this]
      exact foldRemove_total thr cs t
        (hrest t rfl (List.Sublist.refl _))
    | some i =>
      have hcells := hnum c (List.mem_cons_self _ _) i hf
      have hdt : (colCells t i).any Cell.isDt = false := by
        rw [List.any_eq_false]
        intro e he
        rw [isDt_eq_false_of_isNum e (hcells e he)]
        exact fun h => nomatch h
      set mask := (nonMissing (colCells t i)).map
        (isZOut (meanQ (nonMissing (colCells t i)))
          (popVar (nonMissing (colCells t i))) thr) with hmask
      have hlen : mask.length = t.rows.length := by
        rw [hmask, List.length_map, nonMissing_length_of_num _ hcells,
          colCells_length]
      by_cases hany : mask.any (fun b => b) = true
      · rw [removeStep_filter thr t c i hf hdt hany hlen]
        set t2 : Table :=
          { names := t.names, rows := keepRows t.rows (mask.map (fun b => !b)) }
          with ht2
        have : (some t2 >>= fun t1 => List.foldlM (removeStep thr) t1 cs)
            = List.foldlM (removeStep thr) t2 cs := rfl
        rw [this]
        exact foldRemove_total thr cs t2
          (hrest t2 rfl (keepRows_sublist _ _))
      · have hany2 : mask.any (fun b => b) = false := by
          simpa using hany
        rw [removeStep_noOut thr t c i hf hdt hany2]
        have : (some t >>= fun t1 => List.foldlM (removeStep thr) t1 cs)
            = List.foldlM (removeStep thr) t cs := rfl
        rw [this]
        exact foldRemove_total thr cs t
          (hrest t rfl (List.Sublist.refl _))

/-! ### zero-variance statistics -/

theorem sum_const_of_all (l : List ℚ) (k : ℚ) (h : ∀ x ∈ l, x = k) :
    l.sum = k * l.length := by
  induction l with
  | nil => simp
  | cons x xs ih =>
    rw [List.sum_cons, h x (List.mem_cons_self _ _),
      ih (fun y hy => h y (List.mem_cons_of_mem _ hy))]
    push_cast [List.length_cons]
    ring

theorem meanQ_const (l : List ℚ) (k : ℚ) (h : ∀ x ∈ l, x = k)
    (hne : l ≠ []) : meanQ l = k := by
  unfold meanQ
  rw [sum_const_of_all l k h]
  have hl : (l.length : ℚ) ≠ 0 := by
    simpa using fun h0 => hne (List.length_eq_zero.mp h0)
  field_simp

theorem popVar_const (l : List ℚ) (k : ℚ) (h : ∀ x ∈ l, x = k) :
    popVar l = 0 := by
  by_cases hne : l = []
  · subst hne
    simp [popVar]
  · unfold popVar
    have hsum : (l.map (fun x => (x - meanQ l) * (x - meanQ l))).sum = 0 := by
      refine List.sum_eq_zero ?_
      intro y hy
      rcases List.mem_map.mp hy with ⟨x, hx, rfl⟩
      rw [h x hx, meanQ_const l k h hne]
      ring
    rw [hsum]
    simp

theorem zOutlierCount_const (l : List ℚ) (k thr : ℚ) (h : ∀ x ∈ l, x = k) :
    zOutlierCount l thr = 0 := by
  unfold zOutlierCount
  rw [List.countP_eq_zero]
  intro x _
  simp [isZOut, popVar_const l k h]

/-! ### the float order -/

theorem fltLt_asym (a b : Flt) (h : fltLt a b = true) : fltLt b a = false := by
  cases a with
  | none => simp [fltLt] at h
  | some qa =>
    cases b with
    | none => simp [fltLt] at h
    | some qb =>
      simp only [fltLt, decide_eq_true_eq] at h
      simp only [fltLt, decide_eq_false_iff_not]
      exact not_lt_of_lt h

theorem fltLt_irrefl (k : Flt) : fltLt k k = false := by
  cases k <;> simp [fltLt]

theorem fltLt_false_trans (qa qb qc : ℚ)
    (h1 : fltLt (some qa) (some qb) = false)
    (h2 : fltLt (some qb) (some qc) = false) :
    fltLt (some qa) (some qc) = false := by
  simp only [fltLt, decide_eq_false_iff_not] at h1 h2 ⊢
  intro hlt
  have hba : qb ≤ qa := le_of_not_lt h1
  have hcb : qc ≤ qb := le_of_not_lt h2
  exact absurd hlt (not_lt_of_le (hcb.trans hba))

/-! ### the ranking list -/

theorem mem_rankingsList (sq : ℚ → ℚ) (d : List (String × Table))
    (c : String) (e : RankEntry) :
    (c, e) ∈ rankingsList sq d ↔
      ∃ (t : Table) (m : Metrics), (c, t) ∈ d
        ∧ calculate_solar_potential_metrics sq t = some m
        ∧ e = mkRankEntry m := by
  unfold rankingsList
  rw [List.mem_filterMap]
  constructor
  · rintro ⟨p, hp, hmap⟩
    rcases Option.map_eq_some'.mp hmap with ⟨m, hm, heq⟩
    have hc : p.1 = c := congrArg Prod.fst heq
    have he : mkRankEntry m = e := congrArg Prod.snd heq
    refine ⟨p.2, m, ?_, hm, he.symm⟩
    rw [← hc]
    exact hp
  · rintro ⟨t, m, htd, hm, rfl⟩
    exact ⟨(c, t), htd, by rw [hm]; rfl⟩

theorem mem_rank_countries (sq : ℚ → ℚ) (d : List (String × Table))
    (p : String × RankEntry) :
    p ∈ rank_countries sq d ↔ p ∈ rankingsList sq d := by
  unfold rank_countries
  exact mem_pySortedRev entryLt (rankingsList sq d) p

theorem keys_nodup_eq : ∀ (l : List (String × Table)),
    (l.map Prod.fst).Nodup →
    ∀ (a : String) (t1 t2 : Table), (a, t1) ∈ l → (a, t2) ∈ l → t1 = t2
  | [], _, a, _, _, h1, _ => absurd h1 (List.not_mem_nil _)
  | p :: ps, hnd, a, t1, t2, h1, h2 => by
    rw [List.map_cons, List.nodup_cons] at hnd
    rcases List.mem_cons.mp h1 with e1 | m1
    · rcases List.mem_cons.mp h2 with e2 | m2
      · rw [← e1] at e2
        injection e2 with _ hbt
        exact hbt.symm
      · exfalso
        have hpa : p.1 = a := by rw [← e1]
        refine hnd.1 ?_
        rw [hpa]
        exact List.mem_map_of_mem Prod.fst m2
    · rcases List.mem_cons.mp h2 with e2 | m2
      · exfalso
        have hpa : p.1 = a := by rw [← e2]
        refine hnd.1 ?_
        rw [hpa]
        exact List.mem_map_of_mem Prod.fst m1
      · exact keys_nodup_eq ps hnd.2 a t1 t2 m1 m2

theorem composite_eval (m : Metrics) (a v p : ℚ)
    (ha : m.average_ghi = some a) (hv : m.cv_ghi = some v)
    (hp : m.peak_95th = some p) :
    (mkRankEntry m).composite_score
      = some ((0.4 : ℚ) * a + (0.3 : ℚ) * (100 - v)
          + (0.2 : ℚ) * (m.high_potential_hours : ℚ) + (0.1 : ℚ) * p) := by
  simp only [mkRankEntry, ha, hv, hp, fadd, fmul, fsub]
  congr 1
  ring

/-! ### behaviour of detect_outliers -/

theorem detectEntry_pos (t : Table) (thr : ℚ) (c : String) (i : ℕ)
    (hfind : findCol t.names c = some i)
    (hnum : (colCells t i).any Cell.isDt = false) :
    detectEntry t thr c = some (c, zOutlierCount (nonMissing (colCells t i)) thr) := by
  simp [detectEntry, hfind, hnum]

theorem detectEntry_fst (t : Table) (thr : ℚ) (c : String) (e : String × ℕ)
    (h : detectEntry t thr c = some e) : e.1 = c := by
  unfold detectEntry at h
  split at h
  · exact absurd h (by simp)
  · simp only [] at h
    split at h
    · exact absurd h (by simp)
    · injection h with h2
      rw [← h2]

theorem detect_outliers_lookup (t : Table) (thr : ℚ) (c : String) (i : ℕ)
    (hfind : findCol t.names c = some i)
    (hnum : (colCells t i).any Cell.isDt = false) :
    ∀ cols : List String, c ∈ cols →
    (detect_outliers t cols thr).lookup c
      = some (zOutlierCount (nonMissing (colCells t i)) thr)
  | [], hmem => absurd hmem (List.not_mem_nil c)
  | c2 :: cs, hmem => by
    show ((c2 :: cs).filterMap (detectEntry t thr)).lookup c = _
    rw [List.filterMap_cons]
    by_cases he : c2 = c
    · subst he
      rw [detectEntry_pos t thr c2 i hfind hnum]
      simp [List.lookup]
    · cases hE : detectEntry t thr c2 with
      | none =>
        have hmem2 : c ∈ cs := by
          rcases List.mem_cons.mp hmem with h0 | h0
          · exact absurd h0.symm he
          · exact h0
        exact detect_outliers_lookup t thr c i hfind hnum cs hmem2
      | some e =>
        have hmem2 : c ∈ cs := by
          rcases List.mem_cons.mp hmem with h0 | h0
          · exact absurd h0.symm he
          · exact h0
        have he1 : e.1 = c2 := detectEntry_fst t thr c2 e hE
        have hne : (c == e.1) = false := by
          rw [he1]
          simpa using fun h0 => he h0.symm
        simp only [List.lookup, hne]
        exact detect_outliers_lookup t thr c i hfind hnum cs hmem2

/-! ### the claims -/

/-- C2: remove_outliers processes the checked columns strictly
sequentially, recomputing each column's Z-scores over the current
narrowed table, and returns the final table together with the total
number of rows removed; permuting the column order can change which rows
survive, and the result differs from a single combined-mask pass. -/
theorem remove_outliers_sequential :
    (∀ (t : Table) (cols : List String) (thr : ℚ) (t2 : Table) (n : ℕ),
      remove_outliers t cols thr = some (t2, n) →
      n = t.rows.length - t2.rows.length)
    ∧ remove_outliers TC2 ["A", "B"] 1 ≠ remove_outliers TC2 ["B", "A"] 1
    ∧ remove_outliers TC2 ["A", "B"] 1 ≠ some (combinedMaskPass TC2 ["A", "B"] 1) := by
  refine ⟨?_, by decide, by decide⟩
  intro t cols thr t2 n h
  unfold remove_outliers at h
  rcases Option.map_eq_some'.mp h with ⟨t3, _, heq⟩
  injection heq with h1 h2
  subst h1
  exact h2.symm

theorem remove_outliers_sequential_witness :
    (3 : ℕ) = TC2.rows.length - TC2out.rows.length :=
  remove_outliers_sequential.1 TC2 ["A", "B"] 1 TC2out 3 (by decide)

/-- C3: for a present, not entirely missing column, handle_missing_values
replaces each missing entry with the median of the column's non-missing
values at the time of imputation, leaves the column with zero missing
values, and the reported count for the column equals the pre-impute
missing count (no entry is reported when nothing was missing). -/
theorem handle_missing_values_median (t : Table) (cols : List String)
    (c : String) (i : ℕ)
    (hfind : findCol t.names c = some i)
    (hrow : ∀ r ∈ t.rows, i < r.length)
    (hnm : nonMissing (colCells t i) ≠ [])
    (hmem : c ∈ cols) :
    colCells ((handle_missing_values t cols).1) i
      = (colCells t i).map (fillCell (medianCell (nonMissing (colCells t i))))
    ∧ naCount (colCells ((handle_missing_values t cols).1) i) = 0
    ∧ ((handle_missing_values t cols).2).lookup c
      = (if naCount (colCells t i) = 0 then none
         else some (naCount (colCells t i))) := by
  unfold handle_missing_values
  have h := impute_fold_run c i cols t [] hfind hrow rfl hmem
  refine ⟨h.1, ?_, h.2⟩
  rw [h.1]
  rcases medianCell_of_ne_nil _ hnm with ⟨q, hq⟩
  rw [hq]
  exact naCount_map_fill_num q _

theorem handle_missing_values_median_witness :
    colCells ((handle_missing_values TC3 ["GHI"]).1) 0
      = (colCells TC3 0).map (fillCell (medianCell (nonMissing (colCells TC3 0))))
    ∧ naCount (colCells ((handle_missing_values TC3 ["GHI"]).1) 0) = 0
    ∧ ((handle_missing_values TC3 ["GHI"]).2).lookup ("GHI")
      = (if naCount (colCells TC3 0) = 0 then none
         else some (naCount (colCells TC3 0))) :=
  handle_missing_values_median TC3 ["GHI"] ("GHI") 0 (by decide) (by decide)
    (by decide) (by decide)

/-- C5: handle_missing_values and process_timestamp keep the row count
unchanged, and remove_outliers never returns a table with more rows than
its input: the row count only shrinks or stays constant. -/
theorem cleaning_row_count :
    (∀ (t : Table) (cols : List String),
      ((handle_missing_values t cols).1).rows.length = t.rows.length)
    ∧ (∀ (t : Table) (ts : String),
      (process_timestamp t ts).rows.length = t.rows.length)
    ∧ (∀ (t : Table) (cols : List String) (thr : ℚ) (t2 : Table) (n : ℕ),
      remove_outliers t cols thr = some (t2, n) →
      t2.rows.length ≤ t.rows.length) := by
  refine ⟨?_, ?_, ?_⟩
  · intro t cols
    suffices h : ∀ (cols : List String) (t : Table) (rep : List (String × ℕ)),
        ((cols.foldl imputeStep (t, rep)).1).rows.length = t.rows.length from
      h cols t []
    intro cols
    induction cols with
    | nil => intro t rep; rfl
    | cons c cs ih =>
      intro t rep
      rw [List.foldl_cons]
      have h2 := ih (imputeStep (t, rep) c).1 (imputeStep (t, rep) c).2
      rw [show ((imputeStep (t, rep) c).1, (imputeStep (t, rep) c).2)
        = imputeStep (t, rep) c from rfl] at h2
      rw [h2, imputeStep_rows_length]
  · intro t ts
    unfold process_timestamp
    cases findCol t.names ts <;> simp
  · intro t cols thr t2 n h
    unfold remove_outliers at h
    rcases Option.map_eq_some'.mp h with ⟨t3, hf, heq⟩
    injection heq with h1 _
    subst h1
    exact ((foldRemove_props thr cols t _ hf).2).length_le

theorem cleaning_row_count_witness :
    TW5out.rows.length ≤ TW5.rows.length :=
  cleaning_row_count.2.2 TW5 ["A"] 1 TW5out 1 (by decide)

/-- C6: detect_outliers on a present numeric column whose non-missing
values all equal one constant (zero variance) reports zero outliers for
that column, for every threshold; the zero-variance case is the NaN
branch of the Z-score, not a division fault. -/
theorem detect_outliers_zero_variance (t : Table) (cols : List String)
    (c : String) (i : ℕ) (k thr : ℚ)
    (hfind : findCol t.names c = some i)
    (hnum : (colCells t i).any Cell.isDt = false)
    (hconst : ∀ x ∈ nonMissing (colCells t i), x = k)
    (hmem : c ∈ cols) :
    (detect_outliers t cols thr).lookup c = some 0 := by
  rw [detect_outliers_lookup t thr c i hfind hnum cols hmem,
    zOutlierCount_const _ k thr hconst]

theorem detect_outliers_zero_variance_witness :
    (detect_outliers TC6 ["GHI"] 3).lookup ("GHI") = some 0 :=
  detect_outliers_zero_variance TC6 ["GHI"] ("GHI") 0 5 3 (by decide)
    (by decide) (by decide) (by decide)

/-- C8 (amended): on a column whose entries are all missing,
handle_missing_values performs a silent no-op (the median of no data is
missing and filling with it changes nothing): the column keeps all its
missing entries, no distinct no-data condition is signalled, and the
pre-impute missing count is still recorded in the report as if imputed;
remaining columns are processed normally. -/
theorem handle_missing_all_missing (t : Table) (cols : List String)
    (c : String) (i : ℕ)
    (hfind : findCol t.names c = some i)
    (hrow : ∀ r ∈ t.rows, i < r.length)
    (hall : ∀ e ∈ colCells t i, e = Cell.na)
    (hne : colCells t i ≠ []) (hmem : c ∈ cols) :
    colCells ((handle_missing_values t cols).1) i = colCells t i
    ∧ ((handle_missing_values t cols).2).lookup c
        = some ((colCells t i).length) := by
  have hnm : nonMissing (colCells t i) = [] := nonMissing_nil_of_all_na _ hall
  have hct : naCount (colCells t i) = (colCells t i).length := by
    unfold naCount
    rw [List.countP_eq_length]
    intro e he
    simp [hall e he]
  have hmc : naCount (colCells t i) ≠ 0 := by
    rw [hct]
    simpa using fun h0 => hne (List.length_eq_zero.mp h0)
  unfold handle_missing_values
  have h := impute_fold_run c i cols t [] hfind hrow rfl hmem
  constructor
  · rw [h.1, hnm, medianCell_nil, map_fillCell_na]
  · rw [h.2, if_neg hmc, hct]

theorem handle_missing_all_missing_witness :
    colCells ((handle_missing_values TC8 ["GHI", "DNI"]).1) 0 = colCells TC8 0
    ∧ ((handle_missing_values TC8 ["GHI", "DNI"]).2).lookup ("GHI")
        = some ((colCells TC8 0).length) :=
  handle_missing_all_missing TC8 ["GHI", "DNI"] ("GHI") 0 (by decide)
    (by decide) (by decide) (by decide) (by decide)

/-- C8 counterexample: on an entirely missing column the code does not
signal a distinct no-data condition and does not skip the column in the
report: the report records the full missing count as imputed while the
column is returned unchanged, still entirely missing. -/
theorem handle_missing_all_missing_counterexample :
    (handle_missing_values TC8 ["GHI"]).1 = TC8
    ∧ (handle_missing_values TC8 ["GHI"]).2 = [("GHI", 2)]
    ∧ naCount (colCells ((handle_missing_values TC8 ["GHI"]).1) 0) = 2 := by
  refine ⟨by decide, by decide, by decide⟩

/-- C10: remove_outliers computes each mask over the non-missing values
but applies it positionally to the full table; when every checked column
is numeric with no missing values the mask aligns row-for-row and the
operation succeeds, and this precondition is required: on a column with a
missing value and an outlier the mask length differs from the row count
and the removal step fails instead of returning a filtered table. -/
theorem remove_outliers_mask_alignment :
    (∀ (t : Table) (cols : List String) (thr : ℚ),
      (∀ c ∈ cols, ∀ i, findCol t.names c = some i →
        ∀ e ∈ colCells t i, e.isNum = true) →
      (remove_outliers t cols thr).isSome = true)
    ∧ remove_outliers TC10 ["A"] 1 = none := by
  refine ⟨?_, by decide⟩
  intro t cols thr hnum
  have h := foldRemove_total thr cols t hnum
  unfold remove_outliers
  cases hf : List.foldlM (removeStep thr) t cols with
  | none => rw [hf] at h; exact absurd h (by simp)
  | some t3 => rfl

theorem remove_outliers_mask_alignment_witness :
    (remove_outliers TW10 ["A"] 1).isSome = true := by
  refine remove_outliers_mask_alignment.1 TW10 ["A"] 1 ?_
  intro c hc i hfi e he
  have hcA : c = "A" := List.mem_singleton.mp hc
  subst hcA
  have h0 : findCol TW10.names ("A") = some 0 := by decide
  rw [h0] at hfi
  injection hfi with hi
  subst hi
  exact (show ∀ e2 ∈ colCells TW10 0, Cell.isNum e2 = true by decide) e he

/-- C1: every entry of rank_countries carries the composite score
0.4 * averageGHI + 0.3 * (100 - coefficientOfVariation)
+ 0.2 * highPotentialHours + 0.1 * peak95 computed from that country's
solar-potential metrics, and a country whose metrics are empty (GHI
column absent) is excluded from the ranking rather than scored as zero. -/
theorem rank_countries_composite (sq : ℚ → ℚ) (d : List (String × Table))
    (hnd : (d.map Prod.fst).Nodup) :
    (∀ (c : String) (e : RankEntry), (c, e) ∈ rank_countries sq d →
      ∃ (t : Table) (m : Metrics), (c, t) ∈ d
        ∧ calculate_solar_potential_metrics sq t = some m
        ∧ e = mkRankEntry m
        ∧ (∀ (a v p : ℚ), m.average_ghi = some a → m.cv_ghi = some v →
            m.peak_95th = some p →
            e.composite_score = some ((0.4 : ℚ) * a + (0.3 : ℚ) * (100 - v)
              + (0.2 : ℚ) * (m.high_potential_hours : ℚ) + (0.1 : ℚ) * p)))
    ∧ (∀ (c : String) (t : Table), (c, t) ∈ d →
        calculate_solar_potential_metrics sq t = none →
        ∀ e : RankEntry, (c, e) ∉ rank_countries sq d) := by
  constructor
  · intro c e hmem
    rcases (mem_rankingsList sq d c e).mp
      ((mem_rank_countries sq d (c, e)).mp hmem) with ⟨t, m, htd, hm, he⟩
    refine ⟨t, m, htd, hm, he, ?_⟩
    intro a v p ha hv hp
    rw [he]
    exact composite_eval m a v p ha hv hp
  · intro c t htd hnone e hmem
    rcases (mem_rankingsList sq d c e).mp
      ((mem_rank_countries sq d (c, e)).mp hmem) with ⟨t2, m, htd2, hm2, _⟩
    rw [keys_nodup_eq d hnd c t2 t htd2 htd, hnone] at hm2
    exact Option.noConfusion hm2

theorem rank_countries_composite_witness :
    (∃ (t : Table) (m : Metrics), ("A", t) ∈ dW1
      ∧ calculate_solar_potential_metrics (fun q => q) t = some m
      ∧ eA = mkRankEntry m
      ∧ (∀ (a v p : ℚ), m.average_ghi = some a → m.cv_ghi = some v →
          m.peak_95th = some p →
          eA.composite_score = some ((0.4 : ℚ) * a + (0.3 : ℚ) * (100 - v)
            + (0.2 : ℚ) * (m.high_potential_hours : ℚ) + (0.1 : ℚ) * p)))
    ∧ ("N", eA) ∉ rank_countries (fun q => q) dW1 :=
  ⟨(rank_countries_composite (fun q => q) dW1 (by decide)).1 ("A") eA (by decide),
   (rank_countries_composite (fun q => q) dW1 (by decide)).2 ("N") TNOG
     (by decide) (by decide) eA⟩

/-- C4 (amended): whenever every ranked country's composite score is a
defined number, the mapping returned by rank_countries is sorted
descending by composite score, and for any fixed score value the entries
carrying it appear in first-encountered input order (stable tie-break).
As stated over all inputs the claim fails: an undefined (NaN) composite
score compares false against everything and can precede a larger defined
score, see the counterexample. -/
theorem rank_countries_sorted_stable (sq : ℚ → ℚ) (d : List (String × Table))
    (hall : ∀ p ∈ rankingsList sq d, (p.2.composite_score).isSome = true) :
    List.Pairwise (fun a b : String × RankEntry =>
      fltLe b.2.composite_score a.2.composite_score = true)
      (rank_countries sq d)
    ∧ (∀ k : Flt, (rank_countries sq d).filter
        (fun p => decide (p.2.composite_score = k))
      = (rankingsList sq d).filter
        (fun p => decide (p.2.composite_score = k))) := by
  constructor
  · have htr : ∀ a b c2 : String × RankEntry, a ∈ rankingsList sq d →
        b ∈ rankingsList sq d → c2 ∈ rankingsList sq d →
        entryLt b a = false → entryLt c2 b = false →
        entryLt c2 a = false := by
      intro a b c2 ha hb hc h1 h2
      rcases Option.isSome_iff_exists.mp (hall a ha) with ⟨qa, hqa⟩
      rcases Option.isSome_iff_exists.mp (hall b hb) with ⟨qb, hqb⟩
      rcases Option.isSome_iff_exists.mp (hall c2 hc) with ⟨qc, hqc⟩
      unfold entryLt at h1 h2 ⊢
      rw [hqb, hqa] at h1
      rw [hqc, hqb] at h2
      rw [hqc, hqa]
      exact fltLt_false_trans qc qb qa h2 h1
    have hp := pairwise_pySortedRev entryLt
      (fun a b h => fltLt_asym _ _ h) (rankingsList sq d) htr
    refine pairwiseImpMem _ ?_ hp
    intro a b ha hb hab
    have ha2 := (mem_pySortedRev entryLt _ a).mp ha
    have hb2 := (mem_pySortedRev entryLt _ b).mp hb
    rcases Option.isSome_iff_exists.mp (hall a ha2) with ⟨qa, hqa⟩
    rcases Option.isSome_iff_exists.mp (hall b hb2) with ⟨qb, hqb⟩
    unfold entryLt at hab
    rw [hqa, hqb] at hab
    rw [hqb, hqa]
    simp only [fltLt, decide_eq_false_iff_not] at hab
    simp only [fltLe, decide_eq_true_eq]
    exact le_of_not_lt hab
  · intro k
    refine filter_pySortedRev entryLt _ ?_ _
    intro a b hpa hpb
    have ha := of_decide_eq_true hpa
    have hb := of_decide_eq_true hpb
    unfold entryLt
    rw [ha, hb]
    exact fltLt_irrefl k

theorem rank_countries_sorted_stable_witness :
    List.Pairwise (fun a b : String × RankEntry =>
      fltLe b.2.composite_score a.2.composite_score = true)
      (rank_countries (fun q => q) dW4)
    ∧ (rank_countries (fun q => q) dW4).filter
        (fun p => decide (p.2.composite_score = some 80))
      = (rankingsList (fun q => q) dW4).filter
        (fun p => decide (p.2.composite_score = some 80)) :=
  ⟨(rank_countries_sorted_stable (fun q => q) dW4 (by decide)).1,
   (rank_countries_sorted_stable (fun q => q) dW4 (by decide)).2 (some 80)⟩

/-- C4 counterexample: with a country whose GHI column is present but
entirely missing, rank_countries emits an undefined (NaN) composite score
that precedes a strictly larger defined score, so the output violates
score[i] >= score[i+1] for adjacent entries. -/
theorem rank_countries_sorted_counterexample :
    (rank_countries (fun q => q) [("A", TNAN), ("B", TA1)]).map
        (fun p => (p.1, p.2.composite_score)) = [("A", none), ("B", some 80)]
    ∧ ¬ List.Pairwise (fun a b : String × RankEntry =>
        fltLe b.2.composite_score a.2.composite_score = true)
        (rank_countries (fun q => q) [("A", TNAN), ("B", TA1)]) :=
  ⟨by decide, by decide⟩

/-- C7 (amended): compare_countries_statistical computes a result exactly
when at least two countries have the metric column present; a country
with the column present but no non-missing values still counts toward the
two and its empty sample is passed on to the statistical tests; with
fewer than two such countries the result is the empty mapping. -/
theorem compare_countries_guard (d : List (String × Table)) (metric : String) :
    (compare_countries_statistical d metric).isSome
      = decide (2 ≤ d.countP (fun p => (findCol p.2.names metric).isSome)) := by
  unfold compare_countries_statistical
  have hlen : (d.filterMap (fun p => (findCol p.2.names metric).map
      (fun i => (p.1, nonMissing (colCells p.2 i))))).length
      = d.countP (fun p => (findCol p.2.names metric).isSome) := by
    induction d with
    | nil => rfl
    | cons p ps ih =>
      rw [List.filterMap_cons, List.countP_cons]
      cases hf : findCol p.2.names metric with
      | none => simp [hf, ih]
      | some i => simp [hf, ih]
  rw [← hlen]
  by_cases h : (d.filterMap (fun p => (findCol p.2.names metric).map
      (fun i => (p.1, nonMissing (colCells p.2 i))))).length < 2
  · rw [if_pos h]
    have h2 : ¬ 2 ≤ (d.filterMap (fun p => (findCol p.2.names metric).map
        (fun i => (p.1, nonMissing (colCells p.2 i))))).length := by omega
    simp [h2]
  · rw [if_neg h]
    have h2 : 2 ≤ (d.filterMap (fun p => (findCol p.2.names metric).map
        (fun i => (p.1, nonMissing (colCells p.2 i))))).length := by omega
    simp [h2]

/-- C7 counterexample: two countries both have the GHI column but the
second has no non-missing values; the claim requires the empty
insufficient-data result, yet the code computes a result in which the
second sample size is 0 (the empty sample is fed to the tests). -/
theorem compare_countries_counterexample :
    compare_countries_statistical [("A", TA7), ("B", TB7)] ("GHI")
      = some { countries := ["A", "B"],
               sample_sizes := [("A", 3), ("B", 0)] } := by
  decide

/-- C9 (amended): calculate_solar_potential_metrics returns the empty
result exactly when the GHI column is absent; however, when GHI is
present but has no non-missing values, non-empty metrics with undefined
(NaN) fields are returned and enter the composite-score computation, so a
NaN placeholder does flow into the ranking arithmetic (see the
counterexample) instead of an explicit empty result. -/
theorem metrics_empty_iff (sq : ℚ → ℚ) :
    (∀ t : Table, calculate_solar_potential_metrics sq t = none
      ↔ findCol t.names ("GHI") = none)
    ∧ (∀ (t : Table) (i : ℕ) (m : Metrics),
        findCol t.names ("GHI") = some i →
        nonMissing (colCells t i) = [] →
        calculate_solar_potential_metrics sq t = some m →
        m.average_ghi = none ∧ (mkRankEntry m).composite_score = none) := by
  constructor
  · intro t
    unfold calculate_solar_potential_metrics
    cases h : findCol t.names ("GHI") with
    | none => simp
    | some i => simp
  · intro t i m hf hnm hm
    unfold calculate_solar_potential_metrics at hm
    rw [hf] at hm
    injection hm with hm
    have havg : m.average_ghi = none := by
      rw [← hm]
      show fmeanQ (nonMissing (colCells t i)) = none
      rw [hnm]
      rfl
    refine ⟨havg, ?_⟩
    simp [mkRankEntry, havg, fmul, fadd]

theorem metrics_empty_iff_witness :
    calculate_solar_potential_metrics (fun q => q) TNOG = none
    ∧ (mkRankEntry mN).composite_score = none :=
  ⟨((metrics_empty_iff (fun q => q)).1 TNOG).mpr (by decide),
   ((metrics_empty_iff (fun q => q)).2 TNAN 0 mN (by decide) (by decide)
     (by decide)).2⟩

/-- C9 counterexample: a present-but-entirely-missing GHI column yields a
non-empty metrics mapping (with NaN values), and the country enters
rank_countries' composite-score computation with those placeholder
metrics, receiving an undefined score instead of being excluded by an
empty result. -/
theorem metrics_nan_flow_counterexample :
    (calculate_solar_potential_metrics (fun q => q) TNAN).isSome = true
    ∧ (rank_countries (fun q => q) [("N", TNAN)]).map
        (fun p => (p.1, p.2.composite_score)) = [("N", none)] :=
  ⟨by decide, by decide⟩

end Solar
